import Mathlib

/-!
# Verification of `umbral-pre/src/capsule.rs` (rust-umbral)

Shallow embedding of the Capsule module of rust-umbral: encapsulation,
self-verification, direct decapsulation, fixed-width serialization, and the
threshold combination algorithm `open_reencrypted` with its Lagrange
coefficient helper `lambda_coeff`.

The elliptic-curve primitives live outside the verified source. Every cyclic
group of prime order `q` is isomorphic to the additive group `ZMod q`, so a
`CurvePoint` is modelled as an element of `ZMod q` (written additively: the
code's point addition is `+`, and raising a point to a scalar, i.e. the code's
`&point * &scalar`, is multiplication in `ZMod q`); a `CurveScalar` is an
element of the scalar field `ZMod q`. The three domain hash functions are
opaque deterministic maps, passed in as a `Hashes` bundle.
-/

namespace RustUmbral

/-- Modelled from the spec: `CurveScalar` — the scalar field element of the
prime-order curve group (curve primitives are external to the verified
source). Modelled as `ZMod q`. -/
abbrev CurveScalar (q : ℕ) := ZMod q

/-- Modelled from the spec: `CurvePoint` — an opaque element of the
prime-order elliptic-curve group. A cyclic group of prime order `q` is
isomorphic to the additive group `ZMod q`, so points are elements of `ZMod q`;
the code's scalar multiplication of a point becomes field multiplication. -/
abbrev CurvePoint (q : ℕ) := ZMod q

/-- Modelled from the spec: `NonZeroCurveScalar` — a `CurveScalar` statically
guaranteed non-zero. -/
abbrev NonZeroCurveScalar (q : ℕ) := {s : ZMod q // s ≠ 0}

/-- Modelled from the spec: the group generator (scheme parameter). Under the
isomorphism with `ZMod q` the generator is `1`. -/
def CurvePoint.generator (q : ℕ) : CurvePoint q := 1

/-- Modelled from the spec: the group identity element. -/
def CurvePoint.identity (q : ℕ) : CurvePoint q := 0

/-- Modelled from the spec: inversion in the scalar field. Implemented by
Fermat's little theorem (`a ^ (q - 2)`) so that the kernel can evaluate it on
concrete inputs; `scalar_inv_eq_inv` below proves it equal to the field
inverse for prime `q`. -/
def scalar_inv (q : ℕ) (a : ZMod q) : ZMod q :=
  if a = 0 then 0 else a ^ (q - 2)

/-- Modelled from the spec: scalar inversion "returning an explicit
absent-value outcome on non-invertible input" (the code's
`CurveScalar::invert` returning `CtOption`). In the prime field a scalar is
non-invertible exactly when it is zero. -/
def CurveScalar.invert (q : ℕ) (a : ZMod q) : Option (ZMod q) :=
  if a = 0 then none else some (scalar_inv q a)

/-- Modelled from the spec: the key abstraction — a secret key holds a
non-zero secret scalar, and its paired public key is the generator raised to
that scalar (`secret_key.public_key().to_point()`). -/
def public_key_point (q : ℕ) (sk : NonZeroCurveScalar q) : CurvePoint q :=
  CurvePoint.generator q * sk.val

/-- Modelled from the spec: the three domain-separated hash functions consumed
by the capsule module. `hash_capsule_points` is `H1` (capsule self-check, two
points to a scalar), `hash_to_polynomial_arg` is `H2` (polynomial evaluation
coordinate, three points and a fragment identifier to a non-zero scalar), and
`hash_to_shared_secret` is `H3` (blinding factor, three points to a non-zero
scalar, inverted without a failure path in `open_reencrypted`). Fragment
identifiers are modelled as naturals. -/
structure Hashes (q : ℕ) where
  hash_capsule_points : CurvePoint q → CurvePoint q → CurveScalar q
  hash_to_polynomial_arg :
    CurvePoint q → CurvePoint q → CurvePoint q → ℕ → NonZeroCurveScalar q
  hash_to_shared_secret :
    CurvePoint q → CurvePoint q → CurvePoint q → NonZeroCurveScalar q

/-- The `Capsule` struct: `point_e`, `point_v`, `signature` (the `params`
field only carries the fixed generator and is dropped). -/
structure Capsule (q : ℕ) where
  point_e : CurvePoint q
  point_v : CurvePoint q
  signature : CurveScalar q
  deriving DecidableEq

/-- The `CapsuleFrag` struct as consumed by the combiner: `point_e1`,
`point_v1`, `precursor`, `kfrag_id`. -/
structure CapsuleFrag (q : ℕ) where
  point_e1 : CurvePoint q
  point_v1 : CurvePoint q
  precursor : CurvePoint q
  kfrag_id : ℕ
  deriving DecidableEq

instance (q : ℕ) : Inhabited (CapsuleFrag q) := ⟨⟨0, 0, 0, 0⟩⟩

/-- `OpenReencryptedError`: the closed error set of the combiner. -/
inductive OpenReencryptedError where
  | NoCapsuleFrags
  | MismatchedCapsuleFrags
  | RepeatingCapsuleFrags
  | ValidationFailed
  deriving DecidableEq

deriving instance DecidableEq for Except

/-- `Capsule::verify`: recompute `h = H1(point_e, point_v)` and check
`g^signature == point_v + point_e^h`. -/
def Capsule.verify (q : ℕ) (H : Hashes q) (c : Capsule q) : Bool :=
  decide (CurvePoint.generator q * c.signature =
    c.point_v + c.point_e * H.hash_capsule_points c.point_e c.point_v)

/-- `Capsule::new_verified`: builds the capsule and returns it only if
`verify` holds. -/
def Capsule.new_verified (q : ℕ) (H : Hashes q)
    (point_e point_v : CurvePoint q) (signature : CurveScalar q) :
    Option (Capsule q) :=
  match Capsule.verify q H ⟨point_e, point_v, signature⟩ with
  | false => none
  | true => some ⟨point_e, point_v, signature⟩

/-- `Capsule::from_public_key`: encapsulation. The two non-zero ephemeral
scalars drawn from the RNG are passed explicitly as `r` and `u`. Returns the
capsule and the key seed; the seed is the canonical encoding of the shared
point, modelled here as the point itself (the encoding is injective). -/
def Capsule.from_public_key (q : ℕ) (H : Hashes q) (delegating_pk : CurvePoint q)
    (r u : NonZeroCurveScalar q) : Capsule q × CurvePoint q :=
  let g := CurvePoint.generator q
  let pub_r := g * r.val
  let pub_u := g * u.val
  let h := H.hash_capsule_points pub_r pub_u
  let s := u.val + r.val * h
  let shared_key := delegating_pk * (r.val + u.val)
  (⟨pub_r, pub_u, s⟩, shared_key)

/-- `Capsule::open_original`: direct decapsulation,
`(point_e + point_v) ^ delegating_sk`. -/
def Capsule.open_original (q : ℕ) (c : Capsule q)
    (delegating_sk : NonZeroCurveScalar q) : CurvePoint q :=
  (c.point_e + c.point_v) * delegating_sk.val

/-- The loop body of `lambda_coeff`: walk the coordinate list with running
index `j`, skipping `j = i`, multiplying the accumulator by
`xs[j] * (xs[j] - xs[i])⁻¹` and failing when a difference is not
invertible. -/
def lambda_go (q : ℕ) (xi : ZMod q) (i : ℕ) :
    ℕ → List (ZMod q) → ZMod q → Option (ZMod q)
  | _, [], res => some res
  | j, xj :: rest, res =>
    if j = i then lambda_go q xi i (j + 1) rest res
    else
      match CurveScalar.invert q (xj - xi) with
      | none => none
      | some inv_diff => lambda_go q xi i (j + 1) rest (res * xj * inv_diff)

/-- `lambda_coeff(xs, i)`: the Lagrange basis weight of coordinate `i`, the
product over `j ≠ i` of `xs[j] / (xs[j] - xs[i])`, or `None` when some
difference is not invertible. (The Rust indexing `xs[i]` is only reached with
`i` in bounds; out of bounds the model returns `None`.) -/
def lambda_coeff (q : ℕ) (xs : List (NonZeroCurveScalar q)) (i : ℕ) :
    Option (ZMod q) :=
  match xs[i]? with
  | none => none
  | some xi => lambda_go q xi.val i 0 (xs.map Subtype.val) 1

/-- The aggregation loop of `open_reencrypted`: for each fragment, compute its
Lagrange weight (aborting with `RepeatingCapsuleFrags` when `lambda_coeff`
fails) and add the weighted `point_e1`/`point_v1` into the running sums. -/
def combine_go (q : ℕ) (lc : List (NonZeroCurveScalar q)) :
    ℕ → List (CapsuleFrag q) → CurvePoint q → CurvePoint q →
      Except OpenReencryptedError (CurvePoint q × CurvePoint q)
  | _, [], e_prime, v_prime => .ok (e_prime, v_prime)
  | i, cfrag :: rest, e_prime, v_prime =>
    match lambda_coeff q lc i with
    | none => .error .RepeatingCapsuleFrags
    | some lambda_i =>
      combine_go q lc (i + 1) rest (e_prime + cfrag.point_e1 * lambda_i)
        (v_prime + cfrag.point_v1 * lambda_i)

/-- The part of `open_reencrypted` after the emptiness and precursor
consistency checks: derive `pub_key` and `dh_point`, hash each fragment to its
polynomial coordinate, aggregate with Lagrange weights, and validate the
aggregates against the capsule before returning the blinded shared point. -/
def combine_stage (q : ℕ) (H : Hashes q) (c : Capsule q)
    (receiving_sk : NonZeroCurveScalar q) (delegating_pk : CurvePoint q)
    (cfrags : List (CapsuleFrag q)) :
    Except OpenReencryptedError (CurvePoint q) :=
  let precursor := (cfrags.headD default).precursor
  let pub_key := public_key_point q receiving_sk
  let dh_point := precursor * receiving_sk.val
  let lc := cfrags.map fun cfrag =>
    H.hash_to_polynomial_arg precursor pub_key dh_point cfrag.kfrag_id
  match combine_go q lc 0 cfrags (CurvePoint.identity q) (CurvePoint.identity q) with
  | .error err => .error err
  | .ok (e_prime, v_prime) =>
    let d := H.hash_to_shared_secret precursor pub_key dh_point
    let s := c.signature
    let h := H.hash_capsule_points c.point_e c.point_v
    let orig_pub_key := delegating_pk
    let inv_d := scalar_inv q d.val
    if orig_pub_key * (s * inv_d) ≠ e_prime * h + v_prime then
      .error .ValidationFailed
    else
      .ok ((e_prime + v_prime) * d.val)

/-- `Capsule::open_reencrypted`: threshold combination. Validation in order:
empty list, then precursor consistency (against `cfrags[0].precursor`), then
the combination stage. -/
def Capsule.open_reencrypted (q : ℕ) (H : Hashes q) (c : Capsule q)
    (receiving_sk : NonZeroCurveScalar q) (delegating_pk : CurvePoint q)
    (cfrags : List (CapsuleFrag q)) :
    Except OpenReencryptedError (CurvePoint q) :=
  if cfrags.isEmpty then .error .NoCapsuleFrags
  else if ∀ cfrag ∈ cfrags, cfrag.precursor = (cfrags.headD default).precursor then
    combine_stage q H c receiving_sk delegating_pk cfrags
  else .error .MismatchedCapsuleFrags

/-- Modelled from the spec: the canonical fixed-width byte encoding of a
point (curve primitives are external). Injective; modelled as the canonical
representative in `[0, q)`. -/
def point_to_bytes (q : ℕ) (p : CurvePoint q) : ℕ := ZMod.val p

/-- Modelled from the spec: parsing a point from its fixed-width chunk; fails
on byte strings that encode no group element. -/
def point_from_bytes (q : ℕ) (n : ℕ) : Option (CurvePoint q) :=
  if n < q then some (n : ZMod q) else none

/-- Modelled from the spec: the canonical fixed-width byte encoding of a
scalar. -/
def scalar_to_bytes (q : ℕ) (s : CurveScalar q) : ℕ := ZMod.val s

/-- Modelled from the spec: parsing a scalar from its fixed-width chunk. -/
def scalar_from_bytes (q : ℕ) (n : ℕ) : Option (CurveScalar q) :=
  if n < q then some (n : ZMod q) else none

/-- `Capsule::to_array`: the fixed-width concatenation
`point_e_bytes || point_v_bytes || signature_bytes`. Since each field has a
fixed width, the concatenation is modelled as the triple of chunks. -/
def Capsule.to_array (q : ℕ) (c : Capsule q) : ℕ × ℕ × ℕ :=
  (point_to_bytes q c.point_e, point_to_bytes q c.point_v,
    scalar_to_bytes q c.signature)

/-- `Capsule::from_array`: parse `point_e`, `point_v`, `signature` in order,
then re-run `new_verified`; any parse failure or verification failure yields
`none` (the code's `ConstructionError`). -/
def Capsule.from_array (q : ℕ) (H : Hashes q) (arr : ℕ × ℕ × ℕ) :
    Option (Capsule q) := do
  let point_e ← point_from_bytes q arr.1
  let point_v ← point_from_bytes q arr.2.1
  let signature ← scalar_from_bytes q arr.2.2
  Capsule.new_verified q H point_e point_v signature

/-- Modelled from the spec: evaluation of the issuance-side secret-sharing
polynomial (glossary "Threshold/Shamir combination", §6 fragment-issuance
subsystem, external to the verified source). `coeffs` lists the coefficients
from the constant term upward; evaluation is by Horner's rule. -/
def poly_eval (q : ℕ) : List (ZMod q) → ZMod q → ZMod q
  | [], _ => 0
  | c :: cs, z => c + z * poly_eval q cs z

/-- Modelled from the spec: the external fragment-issuance subsystem and proxy
transform (§6: `generate_kfrags` under a `(threshold, total)` policy and
`reencrypt(capsule, keyfrag) -> CapsuleFrag`). A run fixes `precursor`, the
receiver's public key and the Diffie-Hellman point; the key fragment with
identifier `kfrag_id` carries the share `rk = f(x)` with
`x = H2(precursor, receiving_pk, dh_point, kfrag_id)`, where `f` is the
polynomial with coefficient list `coeffs` (its constant term the blinded
secret); `reencrypt` raises the capsule's `point_e` and `point_v` to `rk`. -/
def issued_cfrag (q : ℕ) (H : Hashes q) (capsule : Capsule q)
    (precursor receiving_pk dh_point : CurvePoint q)
    (coeffs : List (ZMod q)) (kfrag_id : ℕ) : CapsuleFrag q :=
  let x := (H.hash_to_polynomial_arg precursor receiving_pk dh_point kfrag_id).val
  let rk := poly_eval q coeffs x
  ⟨capsule.point_e * rk, capsule.point_v * rk, precursor, kfrag_id⟩

/-- Pure closed form of the `lambda_coeff` loop: the product, over the indexed
coordinate list with running index `j` skipping `j = i`, of
`xj * (xj - xi)⁻¹`. -/
def lambda_pure (q : ℕ) (xi : ZMod q) (i : ℕ) : ℕ → List (ZMod q) → ZMod q
  | _, [] => 1
  | j, xj :: rest =>
    (if j = i then 1 else xj * scalar_inv q (xj - xi)) * lambda_pure q xi i (j + 1) rest

instance : Fact (Nat.Prime 5) := ⟨Nat.prime_five⟩

/-- A concrete hash bundle over the five-element field, used to evaluate the
theorems on concrete inputs. -/
def exampleHashes : Hashes 5 where
  hash_capsule_points := fun _ _ => 0
  hash_to_polynomial_arg := fun _ _ _ kfrag_id =>
    if h : ((kfrag_id : ZMod 5) + 1) ≠ 0 then ⟨(kfrag_id : ZMod 5) + 1, h⟩
    else ⟨1, by decide⟩
  hash_to_shared_secret := fun _ _ _ => ⟨2, by decide⟩

end RustUmbral

namespace RustUmbral

/-- For prime `q`, the Fermat implementation of scalar inversion agrees with
the field inverse. -/
theorem scalar_inv_eq_inv (q : ℕ) [Fact (Nat.Prime q)] (a : ZMod q) :
    scalar_inv q a = a⁻¹ := by
  unfold scalar_inv
  by_cases h : a = 0
  · simp [h]
  · rw [if_neg h]
    have hq : 2 ≤ q := (Fact.out : Nat.Prime q).two_le
    have h1 : q - 2 + 1 = q - 1 := by omega
    have hmul : a * a ^ (q - 2) = 1 := by
      rw [← pow_succ', h1, ZMod.pow_card_sub_one_eq_one h]
    exact (inv_eq_of_mul_eq_one_right hmul).symm

/-- `new_verified` succeeds exactly on verifying field triples, and returns
the capsule built from them. -/
theorem new_verified_eq_some (q : ℕ) (H : Hashes q)
    (point_e point_v : CurvePoint q) (signature : CurveScalar q) (c : Capsule q) :
    Capsule.new_verified q H point_e point_v signature = some c ↔
      Capsule.verify q H ⟨point_e, point_v, signature⟩ = true ∧
        c = (⟨point_e, point_v, signature⟩ : Capsule q) := by
  unfold Capsule.new_verified
  rcases hv : Capsule.verify q H ⟨point_e, point_v, signature⟩ with _ | _ <;>
    simp [hv, eq_comm]

/-- `new_verified` fails exactly on non-verifying field triples. -/
theorem new_verified_eq_none (q : ℕ) (H : Hashes q)
    (point_e point_v : CurvePoint q) (signature : CurveScalar q) :
    Capsule.new_verified q H point_e point_v signature = none ↔
      Capsule.verify q H ⟨point_e, point_v, signature⟩ = false := by
  unfold Capsule.new_verified
  rcases hv : Capsule.verify q H ⟨point_e, point_v, signature⟩ with _ | _ <;> simp [hv]

end RustUmbral

namespace RustUmbral

/-- C8: Direct decapsulation is the inverse of encapsulation: `open_original`
computes `encode((point_e + point_v)^delegating_sk)` with no failure path, and
for every capsule and seed produced by `from_public_key` on the public key of
`delegating_sk`, `open_original(delegating_sk)` returns the
encapsulation-time seed. -/
theorem open_original_inverts_from_public_key (q : ℕ) (H : Hashes q)
    (delegating_sk r u : NonZeroCurveScalar q) :
    (Capsule.open_original q
        (Capsule.from_public_key q H (public_key_point q delegating_sk) r u).1
        delegating_sk =
      (Capsule.from_public_key q H (public_key_point q delegating_sk) r u).2)
    ∧ ∀ c : Capsule q, Capsule.open_original q c delegating_sk =
        (c.point_e + c.point_v) * delegating_sk.val := by
  refine ⟨?_, fun c => rfl⟩
  simp only [Capsule.open_original, Capsule.from_public_key, public_key_point,
    CurvePoint.generator, one_mul]
  ring

/-- C2: every live `Capsule` — produced by `from_public_key`, `new_verified`
or `from_array` (the only constructors of the module) — satisfies the
verification equation `g^signature == point_v + point_e^H1(point_e, point_v)`. -/
theorem capsule_invariant (q : ℕ) (H : Hashes q) :
    (∀ (delegating_pk : CurvePoint q) (r u : NonZeroCurveScalar q),
      Capsule.verify q H (Capsule.from_public_key q H delegating_pk r u).1 = true)
    ∧ (∀ (point_e point_v : CurvePoint q) (signature : CurveScalar q) (c : Capsule q),
        Capsule.new_verified q H point_e point_v signature = some c →
        Capsule.verify q H c = true)
    ∧ ∀ (arr : ℕ × ℕ × ℕ) (c : Capsule q),
        Capsule.from_array q H arr = some c → Capsule.verify q H c = true := by
  have hnew : ∀ (point_e point_v : CurvePoint q) (signature : CurveScalar q) (c : Capsule q),
      Capsule.new_verified q H point_e point_v signature = some c →
      Capsule.verify q H c = true := by
    intro point_e point_v signature c h
    obtain ⟨hv, rfl⟩ := (new_verified_eq_some q H point_e point_v signature c).mp h
    exact hv
  refine ⟨?_, hnew, ?_⟩
  · intro delegating_pk r u
    simp only [Capsule.verify, Capsule.from_public_key, CurvePoint.generator,
      one_mul, decide_eq_true_eq]
  · intro arr c h
    simp only [Capsule.from_array, Option.bind_eq_bind, Option.bind_eq_some] at h
    rcases h with ⟨pe, hpe, pv, hpv, s, hs, hnv⟩
    exact hnew pe pv s c hnv

/-- C2 witness at concrete inputs over `ZMod 5`. -/
theorem capsule_invariant_witness :
    Capsule.verify 5 exampleHashes
        (Capsule.from_public_key 5 exampleHashes 2 ⟨1, by decide⟩ ⟨3, by decide⟩).1 = true
    ∧ Capsule.verify 5 exampleHashes (⟨0, 2, 2⟩ : Capsule 5) = true := by
  refine ⟨(capsule_invariant 5 exampleHashes).1 2 ⟨1, by decide⟩ ⟨3, by decide⟩, ?_⟩
  exact (capsule_invariant 5 exampleHashes).2.1 0 2 2 ⟨0, 2, 2⟩ (by decide)

/-- C6: serialization round-trip — for every capsule satisfying the
verification invariant, `from_bytes (to_bytes c) = c`. -/
theorem from_array_to_array_roundtrip (q : ℕ) [Fact (Nat.Prime q)] (H : Hashes q)
    (c : Capsule q) (hc : Capsule.verify q H c = true) :
    Capsule.from_array q H (Capsule.to_array q c) = some c := by
  haveI : NeZero q := ⟨(Fact.out : Nat.Prime q).ne_zero⟩
  have hpoint : ∀ p : CurvePoint q, point_from_bytes q (point_to_bytes q p) = some p := by
    intro p
    simp only [point_from_bytes, point_to_bytes, if_pos (ZMod.val_lt p)]
    rw [ZMod.natCast_rightInverse p]
  have hscalar : ∀ s : CurveScalar q, scalar_from_bytes q (scalar_to_bytes q s) = some s := by
    intro s
    simp only [scalar_from_bytes, scalar_to_bytes, if_pos (ZMod.val_lt s)]
    rw [ZMod.natCast_rightInverse s]
  simp only [Capsule.from_array, Capsule.to_array, hpoint, hscalar,
    Option.bind_eq_bind, Option.some_bind]
  unfold Capsule.new_verified
  simp only [hc]

/-- C6 witness at a concrete capsule over `ZMod 5`. -/
theorem from_array_to_array_roundtrip_witness :
    Capsule.verify 5 exampleHashes (⟨0, 2, 2⟩ : Capsule 5) = true
    ∧ Capsule.from_array 5 exampleHashes (Capsule.to_array 5 (⟨0, 2, 2⟩ : Capsule 5)) =
      some (⟨0, 2, 2⟩ : Capsule 5) := by
  have hv : Capsule.verify 5 exampleHashes (⟨0, 2, 2⟩ : Capsule 5) = true := by decide
  exact ⟨hv, from_array_to_array_roundtrip 5 exampleHashes (⟨0, 2, 2⟩ : Capsule 5) hv⟩

/-- C7: `from_bytes` parses `point_e`, `point_v`, `signature` in order and
re-runs verified construction. It returns `some` only for capsules whose
parsed fields satisfy the verification equation, and fails exactly when a
field fails to parse or verification fails; no byte string yields an
unverified capsule. -/
theorem from_array_validates (q : ℕ) (H : Hashes q) (arr : ℕ × ℕ × ℕ) :
    (∀ c : Capsule q, Capsule.from_array q H arr = some c →
      Capsule.verify q H c = true ∧
      point_from_bytes q arr.1 = some c.point_e ∧
      point_from_bytes q arr.2.1 = some c.point_v ∧
      scalar_from_bytes q arr.2.2 = some c.signature)
    ∧ (Capsule.from_array q H arr = none ↔
        point_from_bytes q arr.1 = none ∨ point_from_bytes q arr.2.1 = none ∨
        scalar_from_bytes q arr.2.2 = none ∨
        ∃ point_e point_v signature,
          point_from_bytes q arr.1 = some point_e ∧
          point_from_bytes q arr.2.1 = some point_v ∧
          scalar_from_bytes q arr.2.2 = some signature ∧
          Capsule.verify q H ⟨point_e, point_v, signature⟩ = false) := by
  rcases hpe : point_from_bytes q arr.1 with _ | pe
  · constructor
    · intro c h
      rw [Capsule.from_array, hpe] at h
      simp at h
    · simp [Capsule.from_array, hpe]
  rcases hpv : point_from_bytes q arr.2.1 with _ | pv
  · constructor
    · intro c h
      rw [Capsule.from_array, hpe, hpv] at h
      simp at h
    · simp [Capsule.from_array, hpe, hpv]
  rcases hps : scalar_from_bytes q arr.2.2 with _ | s
  · constructor
    · intro c h
      rw [Capsule.from_array, hpe, hpv, hps] at h
      simp at h
    · simp [Capsule.from_array, hpe, hpv, hps]
  constructor
  · intro c h
    rw [Capsule.from_array, hpe, hpv, hps] at h
    simp only [Option.bind_eq_bind, Option.some_bind] at h
    obtain ⟨hv, rfl⟩ := (new_verified_eq_some q H pe pv s c).mp h
    exact ⟨hv, rfl, rfl, rfl⟩
  · rw [Capsule.from_array, hpe, hpv, hps]
    simp only [Option.bind_eq_bind, Option.some_bind]
    rw [new_verified_eq_none]
    constructor
    · intro hv
      exact Or.inr (Or.inr (Or.inr ⟨pe, pv, s, rfl, rfl, rfl, hv⟩))
    · intro hcase
      rcases hcase with hno | hno | hno | ⟨pe2, pv2, s2, hpe2, hpv2, hps2, hv2⟩
      · exact Option.noConfusion hno
      · exact Option.noConfusion hno
      · exact Option.noConfusion hno
      · cases hpe2
        cases hpv2
        cases hps2
        exact hv2

/-- C7 witness: a byte triple parsing to a verifying capsule is accepted. -/
theorem from_array_validates_witness :
    Capsule.from_array 5 exampleHashes (0, 2, 2) = some ⟨0, 2, 2⟩
    ∧ Capsule.verify 5 exampleHashes (⟨0, 2, 2⟩ : Capsule 5) = true := by
  refine ⟨by decide, ?_⟩
  exact ((from_array_validates 5 exampleHashes (0, 2, 2)).1 ⟨0, 2, 2⟩ (by decide)).1

end RustUmbral

namespace RustUmbral

/-- The aggregation loop can only fail with `RepeatingCapsuleFrags`. -/
theorem combine_go_error_eq (q : ℕ) (lc : List (NonZeroCurveScalar q)) :
    ∀ (cfrags : List (CapsuleFrag q)) (k : ℕ) (e v : CurvePoint q)
      (err : OpenReencryptedError),
      combine_go q lc k cfrags e v = .error err →
      err = OpenReencryptedError.RepeatingCapsuleFrags := by
  intro cfrags
  induction cfrags with
  | nil =>
    intro k e v err h
    exact absurd h (by simp [combine_go])
  | cons cfrag rest ih =>
    intro k e v err h
    rw [combine_go] at h
    rcases hl : lambda_coeff q lc k with _ | lam
    · rw [hl] at h
      simp only [Except.error.injEq] at h
      exact h.symm
    · rw [hl] at h
      exact ih (k + 1) _ _ err h

/-- If the aggregation loop succeeds, every visited index had a Lagrange
weight. -/
theorem combine_go_ok_lambda_isSome (q : ℕ) (lc : List (NonZeroCurveScalar q)) :
    ∀ (cfrags : List (CapsuleFrag q)) (k : ℕ) (e v : CurvePoint q)
      (p : CurvePoint q × CurvePoint q),
      combine_go q lc k cfrags e v = .ok p →
      ∀ m, m < cfrags.length → lambda_coeff q lc (k + m) ≠ none := by
  intro cfrags
  induction cfrags with
  | nil =>
    intro k e v p _ m hm
    exact absurd hm (by simp)
  | cons cfrag rest ih =>
    intro k e v p h m hm
    rw [combine_go] at h
    rcases hl : lambda_coeff q lc k with _ | lam
    · rw [hl] at h
      cases h
    · rw [hl] at h
      rcases m with _ | m
      · rw [Nat.add_zero, hl]
        exact Option.noConfusion
      · have hshift : k + (m + 1) = (k + 1) + m := by omega
        rw [hshift]
        exact ih (k + 1) _ _ p h m (by simpa using hm)

/-- A missing Lagrange weight at any visited index makes the aggregation loop
fail with `RepeatingCapsuleFrags`. -/
theorem combine_go_of_lambda_none (q : ℕ) (lc : List (NonZeroCurveScalar q))
    (cfrags : List (CapsuleFrag q)) (k : ℕ) (e v : CurvePoint q) (m : ℕ)
    (hm : m < cfrags.length) (h : lambda_coeff q lc (k + m) = none) :
    combine_go q lc k cfrags e v = .error .RepeatingCapsuleFrags := by
  rcases hres : combine_go q lc k cfrags e v with err | p
  · exact congrArg Except.error (combine_go_error_eq q lc cfrags k e v err hres)
  · exact absurd h (combine_go_ok_lambda_isSome q lc cfrags k e v p hres m hm)

/-- Closed form of a successful aggregation loop: the running sums collect the
Lagrange-weighted `point_e1`/`point_v1` of all fragments. -/
theorem combine_go_sum (q : ℕ) (lc : List (NonZeroCurveScalar q)) :
    ∀ (cfrags : List (CapsuleFrag q)) (k : ℕ) (e v : CurvePoint q)
      (lam : ℕ → ZMod q),
      (∀ m, m < cfrags.length → lambda_coeff q lc (k + m) = some (lam (k + m))) →
      combine_go q lc k cfrags e v = .ok
        (e + ∑ m ∈ Finset.range cfrags.length,
            (cfrags.getD m default).point_e1 * lam (k + m),
         v + ∑ m ∈ Finset.range cfrags.length,
            (cfrags.getD m default).point_v1 * lam (k + m)) := by
  intro cfrags
  induction cfrags with
  | nil =>
    intro k e v lam _
    simp [combine_go]
  | cons cfrag rest ih =>
    intro k e v lam hlam
    have h0 : lambda_coeff q lc k = some (lam k) := by
      have := hlam 0 (by simp)
      simpa using this
    simp only [combine_go, h0]
    have hrest : ∀ m, m < rest.length →
        lambda_coeff q lc ((k + 1) + m) = some (lam ((k + 1) + m)) := by
      intro m hm
      have hshift : (k + 1) + m = k + (m + 1) := by omega
      rw [hshift]
      exact hlam (m + 1) (by simpa using hm)
    rw [ih (k + 1) _ _ lam hrest]
    congr 1
    rw [Prod.mk.injEq]
    constructor
    · simp only [List.length_cons]
      rw [Finset.sum_range_succ']
      simp only [List.getD_cons_succ, List.getD_cons_zero, Nat.add_zero]
      have hsum : ∑ x ∈ Finset.range rest.length,
          (rest.getD x default).point_e1 * lam (k + (x + 1)) =
          ∑ x ∈ Finset.range rest.length,
          (rest.getD x default).point_e1 * lam ((k + 1) + x) := by
        refine Finset.sum_congr rfl fun m _ => ?_
        have hm : k + (m + 1) = (k + 1) + m := by omega
        rw [hm]
      rw [hsum]
      ring
    · simp only [List.length_cons]
      rw [Finset.sum_range_succ']
      simp only [List.getD_cons_succ, List.getD_cons_zero, Nat.add_zero]
      have hsum : ∑ x ∈ Finset.range rest.length,
          (rest.getD x default).point_v1 * lam (k + (x + 1)) =
          ∑ x ∈ Finset.range rest.length,
          (rest.getD x default).point_v1 * lam ((k + 1) + x) := by
        refine Finset.sum_congr rfl fun m _ => ?_
        have hm : k + (m + 1) = (k + 1) + m := by omega
        rw [hm]
      rw [hsum]
      ring

/-- The combination stage can only fail with `RepeatingCapsuleFrags` or
`ValidationFailed`. -/
theorem combine_stage_error_cases (q : ℕ) (H : Hashes q) (c : Capsule q)
    (receiving_sk : NonZeroCurveScalar q) (delegating_pk : CurvePoint q)
    (cfrags : List (CapsuleFrag q)) (err : OpenReencryptedError)
    (h : combine_stage q H c receiving_sk delegating_pk cfrags = .error err) :
    err = OpenReencryptedError.RepeatingCapsuleFrags ∨
      err = OpenReencryptedError.ValidationFailed := by
  rw [combine_stage] at h
  rcases hres : combine_go q
      (cfrags.map fun cfrag => H.hash_to_polynomial_arg
        (cfrags.headD default).precursor (public_key_point q receiving_sk)
        ((cfrags.headD default).precursor * receiving_sk.val) cfrag.kfrag_id)
      0 cfrags (CurvePoint.identity q) (CurvePoint.identity q) with err2 | p
  · rw [hres] at h
    simp only [Except.error.injEq] at h
    exact Or.inl (h ▸ combine_go_error_eq q _ cfrags 0 _ _ err2 hres)
  · rw [hres] at h
    rcases p with ⟨e_prime, v_prime⟩
    simp only at h
    split at h
    · simp only [Except.error.injEq] at h
      exact Or.inr h.symm
    · cases h

end RustUmbral

namespace RustUmbral

/-- C4: `open_reencrypted` validates in a fixed order, first failure wins: an
empty list yields exactly `NoCapsuleFrags`; a non-empty list with
inconsistent precursors yields exactly `MismatchedCapsuleFrags`; lists passing
both checks proceed to the combination stage, which can produce neither of
those two errors. -/
theorem open_reencrypted_validation_order (q : ℕ) (H : Hashes q) (c : Capsule q)
    (receiving_sk : NonZeroCurveScalar q) (delegating_pk : CurvePoint q)
    (cfrags : List (CapsuleFrag q)) :
    (Capsule.open_reencrypted q H c receiving_sk delegating_pk cfrags =
        .error .NoCapsuleFrags ↔ cfrags = [])
    ∧ (Capsule.open_reencrypted q H c receiving_sk delegating_pk cfrags =
        .error .MismatchedCapsuleFrags ↔
        cfrags ≠ [] ∧
          ¬ ∀ cfrag ∈ cfrags, cfrag.precursor = (cfrags.headD default).precursor)
    ∧ (cfrags ≠ [] →
        (∀ cfrag ∈ cfrags, cfrag.precursor = (cfrags.headD default).precursor) →
        Capsule.open_reencrypted q H c receiving_sk delegating_pk cfrags =
          combine_stage q H c receiving_sk delegating_pk cfrags)
    ∧ ∀ err, combine_stage q H c receiving_sk delegating_pk cfrags = .error err →
        err = OpenReencryptedError.RepeatingCapsuleFrags ∨
          err = OpenReencryptedError.ValidationFailed := by
  have hstage := combine_stage_error_cases q H c receiving_sk delegating_pk cfrags
  have hstage_ne : ∀ err2, err2 ≠ OpenReencryptedError.RepeatingCapsuleFrags →
      err2 ≠ OpenReencryptedError.ValidationFailed →
      combine_stage q H c receiving_sk delegating_pk cfrags ≠ .error err2 := by
    intro err2 h1 h2 h
    rcases hstage err2 h with h3 | h3
    · exact h1 h3
    · exact h2 h3
  rcases cfrags with _ | ⟨cfrag, rest⟩
  · refine ⟨by simp [Capsule.open_reencrypted], ?_, ?_, hstage⟩
    · simp [Capsule.open_reencrypted]
    · intro hne
      exact absurd rfl hne
  · rw [Capsule.open_reencrypted]
    simp only [List.isEmpty_cons, Bool.false_eq_true, if_false]
    by_cases hall : ∀ cfrag2 ∈ cfrag :: rest,
        cfrag2.precursor = ((cfrag :: rest).headD default).precursor
    · rw [if_pos hall]
      refine ⟨?_, ?_, fun _ _ => rfl, hstage⟩
      · constructor
        · intro h
          exact absurd h (hstage_ne _ (by simp) (by simp))
        · intro h
          cases h
      · constructor
        · intro h
          exact absurd h (hstage_ne _ (by simp) (by simp))
        · intro h
          exact absurd hall h.2
    · rw [if_neg hall]
      refine ⟨by simp, ?_, ?_, hstage⟩
      · simp only [iff_true_intro hall]
        simp
      · intro _ h
        exact absurd h hall

/-- C4 witness: concrete instances of the three validation outcomes. -/
theorem open_reencrypted_validation_order_witness :
    (Capsule.open_reencrypted 5 exampleHashes ⟨0, 2, 2⟩ ⟨1, by decide⟩ 3 [] =
        .error .NoCapsuleFrags)
    ∧ (Capsule.open_reencrypted 5 exampleHashes ⟨0, 2, 2⟩ ⟨1, by decide⟩ 3
        [⟨1, 1, 2, 0⟩, ⟨1, 1, 3, 1⟩] = .error .MismatchedCapsuleFrags)
    ∧ (Capsule.open_reencrypted 5 exampleHashes ⟨0, 2, 2⟩ ⟨1, by decide⟩ 3
        [⟨1, 1, 2, 0⟩] =
        combine_stage 5 exampleHashes ⟨0, 2, 2⟩ ⟨1, by decide⟩ 3 [⟨1, 1, 2, 0⟩]) := by
  refine ⟨?_, ?_, ?_⟩
  · exact (open_reencrypted_validation_order 5 exampleHashes ⟨0, 2, 2⟩ ⟨1, by decide⟩ 3
      []).1.mpr rfl
  · exact (open_reencrypted_validation_order 5 exampleHashes ⟨0, 2, 2⟩ ⟨1, by decide⟩ 3
      [⟨1, 1, 2, 0⟩, ⟨1, 1, 3, 1⟩]).2.1.mpr ⟨by decide, by decide⟩
  · exact (open_reencrypted_validation_order 5 exampleHashes ⟨0, 2, 2⟩ ⟨1, by decide⟩ 3
      [⟨1, 1, 2, 0⟩]).2.2.1 (by decide) (by decide)

end RustUmbral

namespace RustUmbral

/-- C10: for a one-element fragment list the Lagrange weight is the empty
product `1`, so `RepeatingCapsuleFrags` is unreachable, the aggregates are the
fragment's own `point_e1` and `point_v1`, and the call ends in the validation
check: either `Ok` of the blinded sum or `ValidationFailed`. -/
theorem open_reencrypted_singleton (q : ℕ) (H : Hashes q) (c : Capsule q)
    (receiving_sk : NonZeroCurveScalar q) (delegating_pk : CurvePoint q)
    (cfrag : CapsuleFrag q) :
    (∀ x : NonZeroCurveScalar q, lambda_coeff q [x] 0 = some 1)
    ∧ Capsule.open_reencrypted q H c receiving_sk delegating_pk [cfrag] =
      (if delegating_pk * (c.signature * scalar_inv q
            (H.hash_to_shared_secret cfrag.precursor (public_key_point q receiving_sk)
              (cfrag.precursor * receiving_sk.val)).val) ≠
          cfrag.point_e1 * H.hash_capsule_points c.point_e c.point_v + cfrag.point_v1 then
        .error .ValidationFailed
      else
        .ok ((cfrag.point_e1 + cfrag.point_v1) *
          (H.hash_to_shared_secret cfrag.precursor (public_key_point q receiving_sk)
            (cfrag.precursor * receiving_sk.val)).val)) := by
  have hlam : ∀ x : NonZeroCurveScalar q, lambda_coeff q [x] 0 = some 1 := fun x => rfl
  refine ⟨hlam, ?_⟩
  rw [Capsule.open_reencrypted]
  rw [if_neg (by simp)]
  rw [if_pos (by simp)]
  rw [combine_stage]
  simp only [List.map_cons, List.map_nil, List.headD_cons]
  rw [combine_go, hlam]
  simp only [combine_go]
  simp only [CurvePoint.identity, zero_add, mul_one]

/-- After successful aggregation to `(e_prime, v_prime)`, the result of
`open_reencrypted` reduces to the validation conditional. -/
theorem open_reencrypted_agg_result (q : ℕ) (H : Hashes q) (c : Capsule q)
    (receiving_sk : NonZeroCurveScalar q) (delegating_pk : CurvePoint q)
    (cfrags : List (CapsuleFrag q)) (e_prime v_prime : CurvePoint q)
    (hne : cfrags ≠ [])
    (hcons : ∀ cfrag ∈ cfrags, cfrag.precursor = (cfrags.headD default).precursor)
    (hagg : combine_go q
        (cfrags.map fun cfrag => H.hash_to_polynomial_arg
          (cfrags.headD default).precursor (public_key_point q receiving_sk)
          ((cfrags.headD default).precursor * receiving_sk.val) cfrag.kfrag_id)
        0 cfrags (CurvePoint.identity q) (CurvePoint.identity q) =
        .ok (e_prime, v_prime)) :
    Capsule.open_reencrypted q H c receiving_sk delegating_pk cfrags =
      (if delegating_pk * (c.signature * scalar_inv q
            (H.hash_to_shared_secret (cfrags.headD default).precursor
              (public_key_point q receiving_sk)
              ((cfrags.headD default).precursor * receiving_sk.val)).val) ≠
          e_prime * H.hash_capsule_points c.point_e c.point_v + v_prime then
        .error .ValidationFailed
      else
        .ok ((e_prime + v_prime) *
          (H.hash_to_shared_secret (cfrags.headD default).precursor
            (public_key_point q receiving_sk)
            ((cfrags.headD default).precursor * receiving_sk.val)).val)) := by
  rw [Capsule.open_reencrypted]
  rw [if_neg (by simp [List.isEmpty_iff, hne])]
  rw [if_pos hcons]
  rw [combine_stage]
  rw [hagg]

/-- C3: after successful aggregation to `(e_prime, v_prime)`, the check
`delegating_pk ^ (s * d⁻¹) == e_prime ^ h + v_prime` is performed with
`s = capsule.signature`, `h = H1(point_e, point_v)`,
`d = H3(precursor, pub_key, dh_point)`: failure gives `ValidationFailed`,
success gives `Ok(encode((e_prime + v_prime) ^ d))`. -/
theorem open_reencrypted_validation_equation (q : ℕ) (H : Hashes q) (c : Capsule q)
    (receiving_sk : NonZeroCurveScalar q) (delegating_pk : CurvePoint q)
    (cfrags : List (CapsuleFrag q)) (e_prime v_prime : CurvePoint q)
    (hne : cfrags ≠ [])
    (hcons : ∀ cfrag ∈ cfrags, cfrag.precursor = (cfrags.headD default).precursor)
    (hagg : combine_go q
        (cfrags.map fun cfrag => H.hash_to_polynomial_arg
          (cfrags.headD default).precursor (public_key_point q receiving_sk)
          ((cfrags.headD default).precursor * receiving_sk.val) cfrag.kfrag_id)
        0 cfrags (CurvePoint.identity q) (CurvePoint.identity q) =
        .ok (e_prime, v_prime)) :
    Capsule.open_reencrypted q H c receiving_sk delegating_pk cfrags =
      (if delegating_pk * (c.signature * scalar_inv q
            (H.hash_to_shared_secret (cfrags.headD default).precursor
              (public_key_point q receiving_sk)
              ((cfrags.headD default).precursor * receiving_sk.val)).val) ≠
          e_prime * H.hash_capsule_points c.point_e c.point_v + v_prime then
        .error .ValidationFailed
      else
        .ok ((e_prime + v_prime) *
          (H.hash_to_shared_secret (cfrags.headD default).precursor
            (public_key_point q receiving_sk)
            ((cfrags.headD default).precursor * receiving_sk.val)).val)) :=
  open_reencrypted_agg_result q H c receiving_sk delegating_pk cfrags e_prime v_prime
    hne hcons hagg

/-- C3 witness: a concrete single-fragment run ending in the validation
check (which fails at these values). -/
theorem open_reencrypted_validation_equation_witness :
    Capsule.open_reencrypted 5 exampleHashes ⟨0, 2, 2⟩ ⟨1, by decide⟩ 3 [⟨1, 1, 2, 0⟩] =
      .error .ValidationFailed := by
  have h := open_reencrypted_validation_equation 5 exampleHashes ⟨0, 2, 2⟩ ⟨1, by decide⟩ 3
    [⟨1, 1, 2, 0⟩] 1 1 (by decide) (by decide) (by decide)
  rw [h]
  decide

end RustUmbral

namespace RustUmbral

/-- Successful closed form of the `lambda_coeff` loop: when every coordinate
with index other than `i` differs from `xi`, the loop returns the accumulated
product `lambda_pure`. -/
theorem lambda_go_some (q : ℕ) (xi : ZMod q) (i : ℕ) :
    ∀ (l : List (ZMod q)) (k : ℕ) (res : ZMod q),
      (∀ m, m < l.length → k + m ≠ i → l.getD m 0 ≠ xi) →
      lambda_go q xi i k l res = some (res * lambda_pure q xi i k l) := by
  intro l
  induction l with
  | nil =>
    intro k res _
    simp [lambda_go, lambda_pure]
  | cons xj rest ih =>
    intro k res hno
    have hshift : ∀ m, m < rest.length → (k + 1) + m ≠ i → rest.getD m 0 ≠ xi := by
      intro m hm hmi
      have := hno (m + 1) (by simpa using hm) (by omega)
      simpa using this
    by_cases hk : k = i
    · rw [lambda_go, if_pos hk, ih (k + 1) res hshift, lambda_pure, if_pos hk, one_mul]
    · have hxj : xj ≠ xi := by
        have := hno 0 (by simp) (by simpa using hk)
        simpa using this
      have hsub : xj - xi ≠ 0 := sub_ne_zero_of_ne hxj
      rw [lambda_go, if_neg hk]
      simp only [CurveScalar.invert, if_neg hsub]
      rw [ih (k + 1) _ hshift, lambda_pure, if_neg hk]
      exact congrArg some (by ring)

/-- Failure of the `lambda_coeff` loop: a coordinate equal to `xi` at any index
other than `i` makes the loop return `none`. -/
theorem lambda_go_none (q : ℕ) (xi : ZMod q) (i : ℕ) :
    ∀ (l : List (ZMod q)) (k : ℕ) (res : ZMod q) (m : ℕ),
      m < l.length → k + m ≠ i → l.getD m 0 = xi →
      lambda_go q xi i k l res = none := by
  intro l
  induction l with
  | nil =>
    intro k res m hm
    exact absurd hm (by simp)
  | cons xj rest ih =>
    intro k res m hm hki hcol
    by_cases hk : k = i
    · rcases m with _ | m
      · exact absurd hk (by simpa using hki)
      · rw [lambda_go, if_pos hk]
        exact ih (k + 1) res m (by simpa using hm) (by omega) (by simpa using hcol)
    · by_cases hcol0 : xj = xi
      · rw [lambda_go, if_neg hk]
        simp [CurveScalar.invert, sub_eq_zero.mpr hcol0]
      · rcases m with _ | m
        · exact absurd (by simpa using hcol) hcol0
        · rw [lambda_go, if_neg hk]
          simp only [CurveScalar.invert, if_neg (sub_ne_zero_of_ne hcol0)]
          exact ih (k + 1) _ m (by simpa using hm) (by omega) (by simpa using hcol)

/-- `lambda_coeff` succeeds with the `lambda_pure` product when the coordinate
at `i` is distinct from all others. -/
theorem lambda_coeff_some (q : ℕ) (xs : List (NonZeroCurveScalar q)) (i : ℕ)
    (hi : i < xs.length)
    (hdist : ∀ j, j < xs.length → j ≠ i →
      (xs.map Subtype.val).getD j 0 ≠ (xs.map Subtype.val).getD i 0) :
    lambda_coeff q xs i =
      some (lambda_pure q ((xs.map Subtype.val).getD i 0) i 0 (xs.map Subtype.val)) := by
  have hgi : (xs.map Subtype.val).getD i 0 = (xs[i]).val := by
    rw [List.getD_eq_getElem (xs.map Subtype.val) 0 (by simpa using hi),
      List.getElem_map]
  rw [lambda_coeff]
  simp only [List.getElem?_eq_getElem hi]
  rw [lambda_go_some q (xs[i]).val i (xs.map Subtype.val) 0 1 ?_]
  · rw [one_mul, hgi]
  · intro m hm hmi
    have := hdist m (by simpa using hm) (by simpa using hmi)
    rw [hgi] at this
    exact this

/-- `lambda_coeff` fails when some other index carries the same coordinate as
index `i`. -/
theorem lambda_coeff_none (q : ℕ) (xs : List (NonZeroCurveScalar q)) (i j : ℕ)
    (hi : i < xs.length) (hj : j < xs.length) (hji : j ≠ i)
    (hcol : (xs.map Subtype.val).getD j 0 = (xs.map Subtype.val).getD i 0) :
    lambda_coeff q xs i = none := by
  have hgi : (xs.map Subtype.val).getD i 0 = (xs[i]).val := by
    rw [List.getD_eq_getElem (xs.map Subtype.val) 0 (by simpa using hi),
      List.getElem_map]
  rw [lambda_coeff]
  simp only [List.getElem?_eq_getElem hi]
  exact lambda_go_none q (xs[i]).val i (xs.map Subtype.val) 0 1 j
    (by simpa using hj) (by simpa using hji) (by rw [← hgi]; exact hcol)

end RustUmbral

namespace RustUmbral

/-- The loop product `lambda_pure` as a `Finset.range` product over indices. -/
theorem lambda_pure_eq_prod (q : ℕ) (xi : ZMod q) (i : ℕ) :
    ∀ (l : List (ZMod q)) (k : ℕ),
      lambda_pure q xi i k l = ∏ m ∈ Finset.range l.length,
        (if k + m = i then 1 else l.getD m 0 * scalar_inv q (l.getD m 0 - xi)) := by
  intro l
  induction l with
  | nil =>
    intro k
    simp [lambda_pure]
  | cons xj rest ih =>
    intro k
    rw [lambda_pure]
    simp only [List.length_cons]
    rw [Finset.prod_range_succ']
    simp only [List.getD_cons_succ, List.getD_cons_zero, Nat.add_zero]
    rw [ih (k + 1)]
    have hsum : ∏ x ∈ Finset.range rest.length,
        (if k + (x + 1) = i then 1
          else rest.getD x 0 * scalar_inv q (rest.getD x 0 - xi)) =
        ∏ x ∈ Finset.range rest.length,
        (if (k + 1) + x = i then 1
          else rest.getD x 0 * scalar_inv q (rest.getD x 0 - xi)) := by
      refine Finset.prod_congr rfl fun m _ => ?_
      have hm : k + (m + 1) = (k + 1) + m := by omega
      rw [hm]
    rw [hsum]
    exact mul_comm _ _

/-- Dropping the skipped index from a range product with a unit gap. -/
theorem prod_ite_erase (q : ℕ) (n i : ℕ) (g : ℕ → ZMod q) :
    ∏ m ∈ Finset.range n, (if m = i then 1 else g m) =
      ∏ m ∈ (Finset.range n).erase i, g m := by
  by_cases hi : i ∈ Finset.range n
  · rw [← Finset.mul_prod_erase (Finset.range n) _ hi, if_pos rfl, one_mul]
    exact Finset.prod_congr rfl fun m hm => if_neg (Finset.mem_erase.mp hm).1
  · rw [Finset.erase_eq_of_not_mem hi]
    refine Finset.prod_congr rfl fun m hm => if_neg fun h => hi ?_
    rw [← h]
    exact hm

/-- Equal polynomial-argument coordinates at two distinct fragment positions
make `open_reencrypted` fail with `RepeatingCapsuleFrags`. -/
theorem open_reencrypted_repeating (q : ℕ) (H : Hashes q) (c : Capsule q)
    (receiving_sk : NonZeroCurveScalar q) (delegating_pk : CurvePoint q)
    (cfrags : List (CapsuleFrag q)) (i j : ℕ)
    (hi : i < cfrags.length) (hj : j < cfrags.length) (hji : j ≠ i)
    (hcons : ∀ cfrag ∈ cfrags, cfrag.precursor = (cfrags.headD default).precursor)
    (hcol : (((cfrags.map fun cfrag => H.hash_to_polynomial_arg
          (cfrags.headD default).precursor (public_key_point q receiving_sk)
          ((cfrags.headD default).precursor * receiving_sk.val)
          cfrag.kfrag_id).map Subtype.val).getD j 0 =
        ((cfrags.map fun cfrag => H.hash_to_polynomial_arg
          (cfrags.headD default).precursor (public_key_point q receiving_sk)
          ((cfrags.headD default).precursor * receiving_sk.val)
          cfrag.kfrag_id).map Subtype.val).getD i 0)) :
    Capsule.open_reencrypted q H c receiving_sk delegating_pk cfrags =
      .error .RepeatingCapsuleFrags := by
  have hne : cfrags ≠ [] := by
    intro hnil
    rw [hnil] at hi
    exact absurd hi (by simp)
  have hlen : (cfrags.map fun cfrag => H.hash_to_polynomial_arg
      (cfrags.headD default).precursor (public_key_point q receiving_sk)
      ((cfrags.headD default).precursor * receiving_sk.val)
      cfrag.kfrag_id).length = cfrags.length := List.length_map _ _
  have hnone := lambda_coeff_none q
    (cfrags.map fun cfrag => H.hash_to_polynomial_arg
      (cfrags.headD default).precursor (public_key_point q receiving_sk)
      ((cfrags.headD default).precursor * receiving_sk.val)
      cfrag.kfrag_id) i j (by rwa [hlen]) (by rwa [hlen]) hji hcol
  have hcomb := combine_go_of_lambda_none q
    (cfrags.map fun cfrag => H.hash_to_polynomial_arg
      (cfrags.headD default).precursor (public_key_point q receiving_sk)
      ((cfrags.headD default).precursor * receiving_sk.val)
      cfrag.kfrag_id) cfrags 0 (CurvePoint.identity q) (CurvePoint.identity q) i hi
    (by rw [Nat.zero_add]; exact hnone)
  rw [Capsule.open_reencrypted, if_neg (by simp [List.isEmpty_iff, hne]),
    if_pos hcons, combine_stage, hcomb]

/-- C5: the combiner derives per-fragment coordinates via
`hash_to_polynomial_arg` and computes the Lagrange weight of index `i` as the
product over `j ≠ i` of `x_j / (x_j - x_i)`; whenever some difference
`x_j - x_i` is not invertible (two equal coordinates), the whole call returns
`RepeatingCapsuleFrags`. -/
theorem lambda_weights_and_repeating (q : ℕ) (H : Hashes q) (c : Capsule q)
    (receiving_sk : NonZeroCurveScalar q) (delegating_pk : CurvePoint q)
    (cfrags : List (CapsuleFrag q)) (lc : List (NonZeroCurveScalar q))
    (hlc : lc = cfrags.map fun cfrag => H.hash_to_polynomial_arg
      (cfrags.headD default).precursor (public_key_point q receiving_sk)
      ((cfrags.headD default).precursor * receiving_sk.val) cfrag.kfrag_id) :
    (∀ i, i < cfrags.length →
      (∀ j, j < cfrags.length → j ≠ i →
        (lc.map Subtype.val).getD j 0 ≠ (lc.map Subtype.val).getD i 0) →
      lambda_coeff q lc i = some (∏ j ∈ (Finset.range cfrags.length).erase i,
        (lc.map Subtype.val).getD j 0 *
          scalar_inv q ((lc.map Subtype.val).getD j 0 - (lc.map Subtype.val).getD i 0)))
    ∧ ((∀ cfrag ∈ cfrags, cfrag.precursor = (cfrags.headD default).precursor) →
      ∀ i j, i < cfrags.length → j < cfrags.length → j ≠ i →
        (lc.map Subtype.val).getD j 0 = (lc.map Subtype.val).getD i 0 →
        Capsule.open_reencrypted q H c receiving_sk delegating_pk cfrags =
          .error .RepeatingCapsuleFrags) := by
  have hlen : lc.length = cfrags.length := by rw [hlc]; exact List.length_map _ _
  constructor
  · intro i hi hdist
    rw [lambda_coeff_some q lc i (by rwa [hlen])
      (fun j hj hji => hdist j (by rwa [hlen] at hj) hji)]
    congr 1
    rw [lambda_pure_eq_prod]
    simp only [Nat.zero_add, List.length_map, hlen]
    exact prod_ite_erase q cfrags.length i _
  · intro hcons i j hi hj hji hcol
    subst hlc
    exact open_reencrypted_repeating q H c receiving_sk delegating_pk cfrags i j
      hi hj hji hcons hcol

end RustUmbral

namespace RustUmbral

/-- C5 witness: concrete weight computation and a concrete repeated-coordinate
failure over `ZMod 5`. -/
theorem lambda_weights_and_repeating_witness :
    lambda_coeff 5 [⟨1, by decide⟩, ⟨2, by decide⟩] 0 = some 2
    ∧ Capsule.open_reencrypted 5 exampleHashes ⟨0, 2, 2⟩ ⟨1, by decide⟩ 3
        [⟨1, 1, 2, 0⟩, ⟨1, 1, 2, 0⟩] = .error .RepeatingCapsuleFrags := by
  constructor
  · have h := (lambda_weights_and_repeating 5 exampleHashes ⟨0, 2, 2⟩ ⟨1, by decide⟩ 3
      [⟨1, 1, 2, 0⟩, ⟨1, 1, 2, 1⟩] [⟨1, by decide⟩, ⟨2, by decide⟩] (by decide)).1
      0 (by decide) (by decide)
    exact h.trans (by decide)
  · exact (lambda_weights_and_repeating 5 exampleHashes ⟨0, 2, 2⟩ ⟨1, by decide⟩ 3
      [⟨1, 1, 2, 0⟩, ⟨1, 1, 2, 0⟩] [⟨1, by decide⟩, ⟨1, by decide⟩] (by decide)).2
      (by decide) 0 1 (by decide) (by decide) (by decide) (by decide)

/-- C9: two distinct positions holding fragments with the same `kfrag_id`
(hence the same polynomial coordinate) make `open_reencrypted` return
`RepeatingCapsuleFrags` — it never reaches the validation equation, never
returns `Ok` and never returns `ValidationFailed`. -/
theorem duplicate_kfrag_id_repeating (q : ℕ) (H : Hashes q) (c : Capsule q)
    (receiving_sk : NonZeroCurveScalar q) (delegating_pk : CurvePoint q)
    (cfrags : List (CapsuleFrag q)) (i j : ℕ)
    (hi : i < cfrags.length) (hj : j < cfrags.length) (hij : i ≠ j)
    (hcons : ∀ cfrag ∈ cfrags, cfrag.precursor = (cfrags.headD default).precursor)
    (hid : (cfrags.getD i default).kfrag_id = (cfrags.getD j default).kfrag_id) :
    Capsule.open_reencrypted q H c receiving_sk delegating_pk cfrags =
      .error .RepeatingCapsuleFrags
    ∧ (∀ res, Capsule.open_reencrypted q H c receiving_sk delegating_pk cfrags ≠ .ok res)
    ∧ Capsule.open_reencrypted q H c receiving_sk delegating_pk cfrags ≠
        .error .ValidationFailed := by
  have hcoord : ∀ m, m < cfrags.length →
      (((cfrags.map fun cfrag => H.hash_to_polynomial_arg
          (cfrags.headD default).precursor (public_key_point q receiving_sk)
          ((cfrags.headD default).precursor * receiving_sk.val)
          cfrag.kfrag_id).map Subtype.val).getD m 0 =
        (H.hash_to_polynomial_arg
          (cfrags.headD default).precursor (public_key_point q receiving_sk)
          ((cfrags.headD default).precursor * receiving_sk.val)
          ((cfrags.getD m default).kfrag_id)).val) := by
    intro m hm
    rw [List.getD_eq_getElem _ 0 (by simpa using hm), List.getElem_map, List.getElem_map,
      List.getD_eq_getElem _ default hm]
  have hcol : (((cfrags.map fun cfrag => H.hash_to_polynomial_arg
        (cfrags.headD default).precursor (public_key_point q receiving_sk)
        ((cfrags.headD default).precursor * receiving_sk.val)
        cfrag.kfrag_id).map Subtype.val).getD j 0 =
      ((cfrags.map fun cfrag => H.hash_to_polynomial_arg
        (cfrags.headD default).precursor (public_key_point q receiving_sk)
        ((cfrags.headD default).precursor * receiving_sk.val)
        cfrag.kfrag_id).map Subtype.val).getD i 0) := by
    rw [hcoord j hj, hcoord i hi, hid]
  have hmain := open_reencrypted_repeating q H c receiving_sk delegating_pk cfrags i j
    hi hj (Ne.symm hij) hcons hcol
  refine ⟨hmain, ?_, ?_⟩
  · intro res h
    rw [hmain] at h
    cases h
  · intro h
    rw [hmain] at h
    cases h

/-- C9 witness: two distinct fragments sharing a `kfrag_id` over `ZMod 5`. -/
theorem duplicate_kfrag_id_repeating_witness :
    Capsule.open_reencrypted 5 exampleHashes ⟨0, 2, 2⟩ ⟨1, by decide⟩ 3
      [⟨1, 1, 2, 0⟩, ⟨3, 4, 2, 0⟩] = .error .RepeatingCapsuleFrags := by
  exact (duplicate_kfrag_id_repeating 5 exampleHashes ⟨0, 2, 2⟩ ⟨1, by decide⟩ 3
    [⟨1, 1, 2, 0⟩, ⟨3, 4, 2, 0⟩] 0 1 (by decide) (by decide) (by decide)
    (by decide) (by decide)).1

end RustUmbral

namespace RustUmbral

/-- Horner evaluation as a power-series sum over the coefficient list. -/
theorem poly_eval_eq_sum (q : ℕ) :
    ∀ (coeffs : List (ZMod q)) (z : ZMod q),
      poly_eval q coeffs z = ∑ m ∈ Finset.range coeffs.length, coeffs.getD m 0 * z ^ m := by
  intro coeffs
  induction coeffs with
  | nil =>
    intro z
    simp [poly_eval]
  | cons c0 cs ih =>
    intro z
    rw [poly_eval, ih, Finset.mul_sum]
    simp only [List.length_cons]
    rw [Finset.sum_range_succ']
    simp only [List.getD_cons_succ, List.getD_cons_zero, pow_zero, mul_one]
    rw [add_comm]
    congr 1
    refine Finset.sum_congr rfl fun m _ => ?_
    ring

/-- Lagrange interpolation at zero: for pairwise distinct coordinates and at
least as many of them as polynomial coefficients, the weighted sum of the
polynomial's values recovers the constant term. -/
theorem sum_poly_lagrange_at_zero (q : ℕ) [Fact (Nat.Prime q)] (n : ℕ)
    (x : ℕ → ZMod q) (coeffs : List (ZMod q))
    (hlen : coeffs.length ≤ n) (hpos : coeffs ≠ [])
    (hinj : ∀ a b, a < n → b < n → a ≠ b → x a ≠ x b) :
    ∑ m ∈ Finset.range n, poly_eval q coeffs (x m) *
      ∏ j ∈ (Finset.range n).erase m, x j * (x j - x m)⁻¹ = coeffs.headD 0 := by
  classical
  set f : Polynomial (ZMod q) := ∑ m ∈ Finset.range coeffs.length,
    Polynomial.C (coeffs.getD m 0) * Polynomial.X ^ m with hfdef
  have heval : ∀ z, Polynomial.eval z f = poly_eval q coeffs z := by
    intro z
    rw [hfdef, Polynomial.eval_finset_sum, poly_eval_eq_sum]
    refine Finset.sum_congr rfl fun m _ => ?_
    simp
  have hdeg : f.degree < (Finset.range n).card := by
    rw [Finset.card_range]
    refine lt_of_le_of_lt (Polynomial.degree_sum_le _ _) ?_
    refine (Finset.sup_lt_iff ?_).mpr ?_
    · exact WithBot.bot_lt_coe n
    intro m hm
    refine lt_of_le_of_lt (Polynomial.degree_C_mul_X_pow_le m _) ?_
    have hmn : m < n := lt_of_lt_of_le (Finset.mem_range.mp hm) hlen
    exact_mod_cast hmn
  have hvs : Set.InjOn x (Finset.range n) := by
    intro a ha b hb hxab
    by_contra hne
    exact hinj a b (by simpa using ha) (by simpa using hb) hne hxab
  have hf := Lagrange.eq_interpolate hvs hdeg
  have hbasis : ∀ m, Polynomial.eval 0 (Lagrange.basis (Finset.range n) x m) =
      ∏ j ∈ (Finset.range n).erase m, x j * (x j - x m)⁻¹ := by
    intro m
    unfold Lagrange.basis
    rw [Polynomial.eval_prod]
    refine Finset.prod_congr rfl fun j hj => ?_
    unfold Lagrange.basisDivisor
    simp only [Polynomial.eval_mul, Polynomial.eval_C, Polynomial.eval_sub,
      Polynomial.eval_X, zero_sub]
    rw [← neg_sub (x j) (x m), inv_neg]
    ring
  have hstep : ∑ m ∈ Finset.range n, poly_eval q coeffs (x m) *
      ∏ j ∈ (Finset.range n).erase m, x j * (x j - x m)⁻¹ =
      ∑ m ∈ Finset.range n, Polynomial.eval (x m) f *
        Polynomial.eval 0 (Lagrange.basis (Finset.range n) x m) := by
    refine Finset.sum_congr rfl fun m _ => ?_
    rw [heval, hbasis]
  have h1 : ∑ m ∈ Finset.range n, Polynomial.eval (x m) f *
      Polynomial.eval 0 (Lagrange.basis (Finset.range n) x m) =
      Polynomial.eval 0 f := by
    conv_rhs => rw [hf]
    rw [Lagrange.interpolate_apply, Polynomial.eval_finset_sum]
    simp only [Polynomial.eval_mul, Polynomial.eval_C]
  rw [hstep, h1, heval 0]
  rcases coeffs with _ | ⟨c0, cs⟩
  · exact absurd rfl hpos
  · simp [poly_eval]

end RustUmbral

namespace RustUmbral

/-- C1: threshold reconstruction correctness and subset independence. For an
issuance run (modelled from the spec) whose secret-sharing polynomial
`coeffs` has the blinded secret `delegating_sk * d⁻¹` as constant term, and
any selection `ids` of at least `coeffs.length` issued fragments whose
polynomial coordinates are pairwise distinct, `open_reencrypted` succeeds on
the resulting capsule fragments and returns exactly the encapsulation-time
seed, which also equals `open_original delegating_sk` — independently of
which fragments were selected. -/
theorem threshold_reconstruction_correct (q : ℕ) [Fact (Nat.Prime q)] (H : Hashes q)
    (delegating_sk receiving_sk precursor_sk r u : NonZeroCurveScalar q)
    (delegating_pk precursor receiving_pk dh_point : CurvePoint q)
    (capsule : Capsule q) (seed : CurvePoint q) (d : NonZeroCurveScalar q)
    (coeffs : List (ZMod q)) (ids : List ℕ) (cfrags : List (CapsuleFrag q))
    (hpk : delegating_pk = public_key_point q delegating_sk)
    (hcap : (capsule, seed) = Capsule.from_public_key q H delegating_pk r u)
    (hprec : precursor = public_key_point q precursor_sk)
    (hrpk : receiving_pk = public_key_point q receiving_sk)
    (hdh : dh_point = receiving_pk * precursor_sk.val)
    (hd : d = H.hash_to_shared_secret precursor receiving_pk dh_point)
    (hc0 : coeffs.headD 0 = delegating_sk.val * scalar_inv q d.val)
    (hcpos : coeffs ≠ [])
    (hlen : coeffs.length ≤ ids.length)
    (hfrags : cfrags = ids.map
      (issued_cfrag q H capsule precursor receiving_pk dh_point coeffs))
    (hdistinct : ∀ a b, a < ids.length → b < ids.length → a ≠ b →
      (H.hash_to_polynomial_arg precursor receiving_pk dh_point (ids.getD a 0)).val ≠
      (H.hash_to_polynomial_arg precursor receiving_pk dh_point (ids.getD b 0)).val) :
    Capsule.open_reencrypted q H capsule receiving_sk delegating_pk cfrags = .ok seed
    ∧ seed = Capsule.open_original q capsule delegating_sk := by
  subst hfrags
  -- capsule and seed components
  have hcape : capsule = ⟨r.val, u.val,
      u.val + r.val * H.hash_capsule_points r.val u.val⟩ := by
    have h1 := congrArg Prod.fst hcap
    simpa [Capsule.from_public_key, CurvePoint.generator] using h1
  have hseed : seed = delegating_pk * (r.val + u.val) := by
    have h2 := congrArg Prod.snd hcap
    simpa [Capsule.from_public_key] using h2
  -- the fragment list is non-empty
  have hids_ne : ids ≠ [] := by
    intro hnil
    rw [hnil] at hlen
    simp only [List.length_nil, Nat.le_zero] at hlen
    exact hcpos (List.length_eq_zero.mp hlen)
  have hne : ids.map (issued_cfrag q H capsule precursor receiving_pk dh_point coeffs)
      ≠ [] := by
    simpa using hids_ne
  -- the combiner recomputes the issuance-side points
  have hhead : (((ids.map (issued_cfrag q H capsule precursor receiving_pk dh_point
      coeffs)).headD default)).precursor = precursor := by
    rcases ids with _ | ⟨id0, ids_rest⟩
    · exact absurd rfl hids_ne
    · simp [issued_cfrag]
  have hpub : public_key_point q receiving_sk = receiving_pk := hrpk.symm
  have hdh2 : precursor * receiving_sk.val = dh_point := by
    rw [hdh, hprec, hrpk]
    simp [public_key_point, CurvePoint.generator, mul_comm]
  have hcons : ∀ cfrag ∈ ids.map (issued_cfrag q H capsule precursor receiving_pk
      dh_point coeffs), cfrag.precursor =
      (((ids.map (issued_cfrag q H capsule precursor receiving_pk dh_point
        coeffs)).headD default)).precursor := by
    intro cfrag hcf
    rw [hhead]
    obtain ⟨kid, _, rfl⟩ := List.mem_map.mp hcf
    simp [issued_cfrag]
  -- the coordinate list computed by the combiner
  have hlc : ((ids.map (issued_cfrag q H capsule precursor receiving_pk dh_point
        coeffs)).map fun cfrag => H.hash_to_polynomial_arg
        (((ids.map (issued_cfrag q H capsule precursor receiving_pk dh_point
          coeffs)).headD default)).precursor
        (public_key_point q receiving_sk)
        ((((ids.map (issued_cfrag q H capsule precursor receiving_pk dh_point
          coeffs)).headD default)).precursor * receiving_sk.val)
        cfrag.kfrag_id) =
      ids.map fun kid => H.hash_to_polynomial_arg precursor receiving_pk dh_point kid := by
    rw [hhead, hpub, hdh2, List.map_map]
    refine List.map_congr_left fun kid _ => ?_
    simp [Function.comp, issued_cfrag]
  -- element extraction through the maps
  have hgetD : ∀ m, m < ids.length →
      (ids.map (issued_cfrag q H capsule precursor receiving_pk dh_point
        coeffs)).getD m default =
      issued_cfrag q H capsule precursor receiving_pk dh_point coeffs
        (ids.getD m 0) := by
    intro m hm
    rw [List.getD_eq_getElem _ default (by simpa using hm), List.getElem_map,
      List.getD_eq_getElem _ 0 hm]
  have hzco : ∀ m, m < ids.length →
      (((ids.map fun kid => H.hash_to_polynomial_arg precursor receiving_pk dh_point
        kid).map Subtype.val).getD m 0) =
      (H.hash_to_polynomial_arg precursor receiving_pk dh_point (ids.getD m 0)).val := by
    intro m hm
    rw [List.getD_eq_getElem _ 0 (by simpa using hm), List.getElem_map, List.getElem_map,
      List.getD_eq_getElem _ 0 hm]
  -- Lagrange weights for every index
  have hlam : ∀ m, m < ids.length →
      lambda_coeff q (ids.map fun kid => H.hash_to_polynomial_arg precursor receiving_pk
        dh_point kid) m =
      some (∏ j ∈ (Finset.range ids.length).erase m,
        (H.hash_to_polynomial_arg precursor receiving_pk dh_point (ids.getD j 0)).val *
          scalar_inv q
            ((H.hash_to_polynomial_arg precursor receiving_pk dh_point (ids.getD j 0)).val -
              (H.hash_to_polynomial_arg precursor receiving_pk dh_point
                (ids.getD m 0)).val)) := by
    intro m hm
    rw [lambda_coeff_some q _ m (by simpa using hm) ?_]
    · refine congrArg some ?_
      rw [lambda_pure_eq_prod]
      simp only [Nat.zero_add, List.length_map]
      rw [prod_ite_erase]
      refine Finset.prod_congr rfl fun j hj => ?_
      have hjlt : j < ids.length := Finset.mem_range.mp (Finset.mem_of_mem_erase hj)
      rw [hzco j hjlt, hzco m hm]
    · intro j hj hjm
      rw [hzco j (by simpa using hj), hzco m hm]
      exact hdistinct j m (by simpa using hj) hm hjm
  -- the key Lagrange identity at zero
  have hkey : ∑ m ∈ Finset.range ids.length,
      poly_eval q coeffs
        ((H.hash_to_polynomial_arg precursor receiving_pk dh_point (ids.getD m 0)).val) *
      ∏ j ∈ (Finset.range ids.length).erase m,
        (H.hash_to_polynomial_arg precursor receiving_pk dh_point (ids.getD j 0)).val *
          scalar_inv q
            ((H.hash_to_polynomial_arg precursor receiving_pk dh_point (ids.getD j 0)).val -
              (H.hash_to_polynomial_arg precursor receiving_pk dh_point
                (ids.getD m 0)).val) = coeffs.headD 0 := by
    have h := sum_poly_lagrange_at_zero q ids.length
      (fun m => (H.hash_to_polynomial_arg precursor receiving_pk dh_point
        (ids.getD m 0)).val) coeffs hlen hcpos hdistinct
    simp only [scalar_inv_eq_inv]
    exact h
  -- run the aggregation loop
  have hcomb := combine_go_sum q
    (ids.map fun kid => H.hash_to_polynomial_arg precursor receiving_pk dh_point kid)
    (ids.map (issued_cfrag q H capsule precursor receiving_pk dh_point coeffs))
    0 (CurvePoint.identity q) (CurvePoint.identity q)
    (fun m => ∏ j ∈ (Finset.range ids.length).erase m,
      (H.hash_to_polynomial_arg precursor receiving_pk dh_point (ids.getD j 0)).val *
        scalar_inv q
          ((H.hash_to_polynomial_arg precursor receiving_pk dh_point (ids.getD j 0)).val -
            (H.hash_to_polynomial_arg precursor receiving_pk dh_point
              (ids.getD m 0)).val))
    (by
      intro m hm
      rw [Nat.zero_add]
      exact hlam m (by simpa using hm))
  simp only [Nat.zero_add] at hcomb
  -- the two aggregated group elements
  have hE : CurvePoint.identity q + ∑ m ∈ Finset.range
      (ids.map (issued_cfrag q H capsule precursor receiving_pk dh_point
        coeffs)).length,
      ((ids.map (issued_cfrag q H capsule precursor receiving_pk dh_point
        coeffs)).getD m default).point_e1 *
      ∏ j ∈ (Finset.range ids.length).erase m,
        (H.hash_to_polynomial_arg precursor receiving_pk dh_point (ids.getD j 0)).val *
          scalar_inv q
            ((H.hash_to_polynomial_arg precursor receiving_pk dh_point (ids.getD j 0)).val -
              (H.hash_to_polynomial_arg precursor receiving_pk dh_point
                (ids.getD m 0)).val) =
      capsule.point_e * (delegating_sk.val * scalar_inv q d.val) := by
    simp only [CurvePoint.identity, zero_add, List.length_map]
    rw [← hc0, ← hkey, Finset.mul_sum]
    refine Finset.sum_congr rfl fun m hm => ?_
    rw [hgetD m (Finset.mem_range.mp hm)]
    simp only [issued_cfrag]
    ring
  have hV : CurvePoint.identity q + ∑ m ∈ Finset.range
      (ids.map (issued_cfrag q H capsule precursor receiving_pk dh_point
        coeffs)).length,
      ((ids.map (issued_cfrag q H capsule precursor receiving_pk dh_point
        coeffs)).getD m default).point_v1 *
      ∏ j ∈ (Finset.range ids.length).erase m,
        (H.hash_to_polynomial_arg precursor receiving_pk dh_point (ids.getD j 0)).val *
          scalar_inv q
            ((H.hash_to_polynomial_arg precursor receiving_pk dh_point (ids.getD j 0)).val -
              (H.hash_to_polynomial_arg precursor receiving_pk dh_point
                (ids.getD m 0)).val) =
      capsule.point_v * (delegating_sk.val * scalar_inv q d.val) := by
    simp only [CurvePoint.identity, zero_add, List.length_map]
    rw [← hc0, ← hkey, Finset.mul_sum]
    refine Finset.sum_congr rfl fun m hm => ?_
    rw [hgetD m (Finset.mem_range.mp hm)]
    simp only [issued_cfrag]
    ring
  rw [hE, hV] at hcomb
  -- package the aggregation fact in the combiner's own terms
  have hagg : combine_go q
      ((ids.map (issued_cfrag q H capsule precursor receiving_pk dh_point
        coeffs)).map fun cfrag => H.hash_to_polynomial_arg
        (((ids.map (issued_cfrag q H capsule precursor receiving_pk dh_point
          coeffs)).headD default)).precursor
        (public_key_point q receiving_sk)
        ((((ids.map (issued_cfrag q H capsule precursor receiving_pk dh_point
          coeffs)).headD default)).precursor * receiving_sk.val)
        cfrag.kfrag_id)
      0 (ids.map (issued_cfrag q H capsule precursor receiving_pk dh_point coeffs))
      (CurvePoint.identity q) (CurvePoint.identity q) =
      .ok (capsule.point_e * (delegating_sk.val * scalar_inv q d.val),
        capsule.point_v * (delegating_sk.val * scalar_inv q d.val)) := by
    rw [hlc]
    exact hcomb
  have hres := open_reencrypted_agg_result q H capsule receiving_sk delegating_pk
    (ids.map (issued_cfrag q H capsule precursor receiving_pk dh_point coeffs))
    (capsule.point_e * (delegating_sk.val * scalar_inv q d.val))
    (capsule.point_v * (delegating_sk.val * scalar_inv q d.val))
    hne hcons hagg
  have hd2 : H.hash_to_shared_secret
      (((ids.map (issued_cfrag q H capsule precursor receiving_pk dh_point
        coeffs)).headD default)).precursor
      (public_key_point q receiving_sk)
      ((((ids.map (issued_cfrag q H capsule precursor receiving_pk dh_point
        coeffs)).headD default)).precursor * receiving_sk.val) = d := by
    rw [hhead, hpub, hdh2, hd]
  rw [hd2] at hres
  -- the validation equation holds
  have hvalid : delegating_pk * (capsule.signature * scalar_inv q d.val) =
      capsule.point_e * (delegating_sk.val * scalar_inv q d.val) *
        H.hash_capsule_points capsule.point_e capsule.point_v +
      capsule.point_v * (delegating_sk.val * scalar_inv q d.val) := by
    rw [hcape, hpk]
    simp only [public_key_point, CurvePoint.generator, one_mul, scalar_inv_eq_inv]
    ring
  rw [if_neg (not_not_intro hvalid)] at hres
  -- the returned seed
  have hfinal : (capsule.point_e * (delegating_sk.val * scalar_inv q d.val) +
      capsule.point_v * (delegating_sk.val * scalar_inv q d.val)) * d.val = seed := by
    rw [hseed, hcape, hpk]
    simp only [public_key_point, CurvePoint.generator, one_mul, scalar_inv_eq_inv]
    have hdinv : (d.val)⁻¹ * d.val = 1 := inv_mul_cancel₀ d.prop
    calc (r.val * (delegating_sk.val * (d.val)⁻¹) +
          u.val * (delegating_sk.val * (d.val)⁻¹)) * d.val
        = delegating_sk.val * (r.val + u.val) * ((d.val)⁻¹ * d.val) := by ring
      _ = delegating_sk.val * (r.val + u.val) := by rw [hdinv, mul_one]
      _ = delegating_sk.val * (r.val + u.val) := rfl
  rw [hfinal] at hres
  refine ⟨hres, ?_⟩
  rw [hseed, hcape, hpk]
  simp only [Capsule.open_original, public_key_point, CurvePoint.generator, one_mul]
  ring

end RustUmbral

namespace RustUmbral

/-- C1 witness: a concrete 2-of-2 reconstruction over `ZMod 5` recovering the
encapsulation seed. -/
theorem threshold_reconstruction_correct_witness :
    Capsule.open_reencrypted 5 exampleHashes ⟨1, 1, 1⟩ ⟨1, by decide⟩ 2
        [⟨1, 1, 1, 0⟩, ⟨1, 1, 1, 1⟩] = .ok 4
    ∧ (4 : ZMod 5) = Capsule.open_original 5 ⟨1, 1, 1⟩ ⟨2, by decide⟩ :=
  threshold_reconstruction_correct 5 exampleHashes ⟨2, by decide⟩ ⟨1, by decide⟩
    ⟨1, by decide⟩ ⟨1, by decide⟩ ⟨1, by decide⟩ 2 1 1 1 ⟨1, 1, 1⟩ 4 ⟨2, by decide⟩
    [1, 0] [0, 1] [⟨1, 1, 1, 0⟩, ⟨1, 1, 1, 1⟩]
    (by decide) (by decide) (by decide) (by decide) (by decide) (by decide)
    (by decide) (by decide) (by decide) (by decide)
    (by
      intro a b ha hb hne
      have ha2 : a < 2 := by simpa using ha
      have hb2 : b < 2 := by simpa using hb
      interval_cases a <;> interval_cases b <;> first | exact absurd rfl hne | decide)

end RustUmbral
